import Mathlib

/-!
# Verification of the HubSpot contact-analysis pipeline core

Shallow embedding of the cursor-paginated, batch-bounded aggregation and
incremental-merge pipeline of `src/index.js`, together with theorems that
settle the frozen claims about it.

Modelling conventions:
* JS `Map` objects become insertion-ordered association lists
  (`List (String × α)`) with JS `Map.get` / `Map.set` semantics.
* JS values that may be `null`/`undefined` become `Option`s.
* Remote APIs become explicit page sources (lists of page results) or
  fetch functions passed in as parameters.
* JS `new Date(string).getTime()` is abstracted as a parameter
  `dateParse : String → Option Int` (`none` models `NaN`).
-/

namespace HubSpotAnalysis

/-- JS-`Map`-like get: value of the first (unique) binding for `k`. -/
def jmGet (m : List (String × α)) (k : String) : Option α :=
  match m with
  | [] => none
  | (k', v) :: rest => if k' = k then some v else jmGet rest k

/-- JS-`Map`-like set: replace in place if the key exists (keeping its
position), otherwise append the new binding at the end. -/
def jmSet (m : List (String × α)) (k : String) (v : α) : List (String × α) :=
  match m with
  | [] => [(k, v)]
  | (k', v') :: rest => if k' = k then (k, v) :: rest else (k', v') :: jmSet rest k v

/-- Raw `submittedAt` value of a submission as it appears on the wire:
JS `null`/`undefined`, a millisecond number, or a date string. -/
inductive SubmittedAtVal where
  | null : SubmittedAtVal
  | num : Int → SubmittedAtVal
  | str : String → SubmittedAtVal
deriving DecidableEq, Repr

/-- `parseSubmittedAt` from `src/index.js`: `null` stays unparsed, a number
is taken as milliseconds, a string goes through `new Date(...)` (modelled by
the abstract `dateParse`, `none` = `NaN`). -/
def parseSubmittedAt (dateParse : String → Option Int) : SubmittedAtVal → Option Int
  | .null => none
  | .num n => some n
  | .str s => dateParse s

/-- One `{ name, value }` element of a submission's `values` array. -/
structure FieldVal where
  name : Option String
  value : Option String
deriving DecidableEq, Repr

/-- One cached form-submission entry (the objects stored per email in the
cache file and produced by `collectFormSubmissionsForForm`). -/
structure Entry where
  formName : Option String
  formGuid : Option String
  submittedAt : SubmittedAtVal
  pageUrl : Option String
  conversionId : Option String
  values : List FieldVal
deriving DecidableEq, Repr

/-- `byEmail` maps: lowercased email → ordered entry list. -/
abbrev EmailMap := List (String × List Entry)

/-- The merge's composite key, exactly as built in
`mergeFormSubmissionsIntoCache`: `` `${entry.formGuid ?? ''}:${entry.conversionId ?? ''}` ``. -/
def keyOf (e : Entry) : String :=
  e.formGuid.getD "" ++ ":" ++ e.conversionId.getD ""

/-- The inner step of `mergeFormSubmissionsIntoCache` for one fresh entry:
`findIndex` of the first entry with the same composite key; overwrite it in
place when found, otherwise push at the end. -/
def mergeEntry (list : List Entry) (entry : Entry) : List Entry :=
  match list with
  | [] => [entry]
  | e :: rest =>
    if keyOf e = keyOf entry then entry :: rest else e :: mergeEntry rest entry

/-- `mergeFormSubmissionsIntoCache(cachedByEmail, freshByEmail)`: for every
email of the delta, ensure the email's list exists, then merge each fresh
entry into it by composite key. -/
def mergeFormSubmissionsIntoCache (cachedByEmail freshByEmail : EmailMap) : EmailMap :=
  freshByEmail.foldl
    (fun c p => jmSet c p.1 (p.2.foldl mergeEntry ((jmGet c p.1).getD [])))
    cachedByEmail

/-- JS string truthiness for an optional string: `null`/`undefined` and the
empty string are falsy. Used for `if (!next) break`-style cursor checks and
`!eventTypeOpen`-style checks. -/
def strTruthy : Option String → Bool
  | none => false
  | some s => s != ""

/-- One raw submission object from the Form Integrations v1 API (the two
possible spellings `submittedAt`/`submitted_at`, `pageUrl`/`page_url`,
`conversionId`/`conversion_id` are modelled by their coalesced value). -/
structure Sub where
  conversionId : Option String
  submittedAt : SubmittedAtVal
  pageUrl : Option String
  values : Option (List FieldVal)
deriving DecidableEq, Repr

/-- One page of the form-submissions API: `data.results` plus the coalesced
continuation cursor `data.offset ?? data.paging?.next?.after`. -/
abbrev FormPage := List Sub × Option Nat

/-- The early-stop test inside `fetchFormSubmissions`: fires when a cutoff is
configured and the submission parses to a timestamp strictly below it. -/
def stopsAtCutoff (dateParse : String → Option Int) (cutoff : Int) (s : Sub) : Bool :=
  decide (0 < cutoff) &&
    (match parseSubmittedAt dateParse s.submittedAt with
     | some m => decide (m < cutoff)
     | none => false)

/-- The per-page item loop of `fetchFormSubmissions`: walks the page's
results, stopping the whole pagination (`Bool` component) on the cutoff test
or once `yielded` reaches `maxSub` (when `maxSub > 0`). Returns the yielded
items, the stop flag, and the updated `yielded` counter. -/
def formYieldPage (dateParse : String → Option Int) (cutoff : Int) (maxSub : Nat) :
    List Sub → Nat → List Sub × Bool × Nat
  | [], y => ([], false, y)
  | s :: rest, y =>
    if stopsAtCutoff dateParse cutoff s then ([], true, y)
    else
      let y' := y + 1
      if 0 < maxSub ∧ maxSub ≤ y' then ([s], true, y')
      else
        let r := formYieldPage dateParse cutoff maxSub rest y'
        (s :: r.1, r.2.1, r.2.2)

/-- The items yielded by `fetchFormSubmissions` over a finite page source:
stops on an empty page, on the in-page stop conditions, or on a `null`
continuation cursor (`after == null`; unlike the search paginator a cursor
value of `0` still continues, hence `Option.isSome` and not truthiness). -/
def formYield (dateParse : String → Option Int) (cutoff : Int) (maxSub : Nat) :
    List FormPage → Nat → List Sub
  | [], _ => []
  | (results, next) :: rest, y =>
    if results = [] then []
    else
      let r := formYieldPage dateParse cutoff maxSub results y
      if r.2.1 then r.1
      else
        r.1 ++ (if next.isSome then formYield dateParse cutoff maxSub rest r.2.2 else [])

/-- Number of page requests `fetchFormSubmissions` issues against the same
page source: one per loop iteration that reaches the `fetch`. -/
def formRequestCount (dateParse : String → Option Int) (cutoff : Int) (maxSub : Nat) :
    List FormPage → Nat → Nat
  | [], _ => 0
  | (results, next) :: rest, y =>
    1 + (if results = [] then 0
      else
        let r := formYieldPage dateParse cutoff maxSub results y
        if r.2.1 then 0
        else if next.isSome then formRequestCount dateParse cutoff maxSub rest r.2.2 else 0)

/-- ASCII lowercasing of one character, as JS `toLowerCase` does on the
ASCII range (the only range email field names and addresses use here). -/
def jsCharLower (c : Char) : Char :=
  if 'A' ≤ c ∧ c ≤ 'Z' then Char.ofNat (c.toNat + 32) else c

/-- JS `String.prototype.toLowerCase`, restricted to ASCII case mapping. -/
def jsToLower (s : String) : String :=
  ⟨s.data.map jsCharLower⟩

/-- Whitespace stripped by JS `String.prototype.trim` (ASCII subset). -/
def jsIsSpace (c : Char) : Bool :=
  c == ' ' || c == '\t' || c == '\n' || c == '\r'

/-- JS `String.prototype.trim`: strip leading and trailing whitespace. -/
def jsTrim (s : String) : String :=
  ⟨((s.data.dropWhile jsIsSpace).reverse.dropWhile jsIsSpace).reverse⟩

/-- The lowercased field-name map built inside
`getEmailFromSubmissionValues` (later fields overwrite earlier ones). -/
def lowerFieldMap (vs : List FieldVal) : List (String × Option String) :=
  vs.foldl
    (fun m v => match v.name with
      | some n => jmSet m (jsToLower n) v.value
      | none => m)
    []

/-- `getEmailFromSubmissionValues`: `null` unless `values` is an array; the
`email` field's value, else the `e_mail` field's value, else `null` (a field
present with a `null` value falls through, as JS `??` does). -/
def getEmailFromSubmissionValues : Option (List FieldVal) → Option String
  | none => none
  | some vs =>
    ((jmGet (lowerFieldMap vs) "email").join).orElse
      (fun _ => (jmGet (lowerFieldMap vs) "e_mail").join)

/-- One form object from the Forms v2 list. -/
structure Form where
  guid : Option String
  formId : Option String
  id : Option String
  name : Option String
deriving DecidableEq, Repr

/-- The email key a submission files under in
`collectFormSubmissionsForForm`: skip falsy emails, trim + lowercase, skip
keys that end up empty. -/
def submissionEmailKey (s : Sub) : Option String :=
  match getEmailFromSubmissionValues s.values with
  | none => none
  | some e =>
    if e = "" then none
    else
      let k := jsToLower (jsTrim e)
      if k = "" then none else some k

/-- The entry object `collectFormSubmissionsForForm` builds per submission. -/
def mkEntry (formName formGuid : String) (s : Sub) : Entry :=
  { formName := some formName
    formGuid := some formGuid
    submittedAt := s.submittedAt
    pageUrl := s.pageUrl
    conversionId := s.conversionId
    values := s.values.getD [] }

/-- The loop body of `collectFormSubmissionsForForm`: skip submissions
without a usable email, otherwise push the built entry onto that email's
list. -/
def fileSubmissionStep (ent : Sub → Entry) (m : EmailMap) (s : Sub) : EmailMap :=
  match submissionEmailKey s with
  | none => m
  | some k => jmSet m k (((jmGet m k).getD []) ++ [ent s])

/-- `collectFormSubmissionsForForm`: resolve the form's guid
(`guid ?? formId ?? id`, empty map when falsy), then file every yielded
submission that carries a usable email under its email key. -/
def collectFormSubmissionsForForm (dateParse : String → Option Int) (form : Form)
    (pages : List FormPage) (maxPerForm : Nat) (cutoff : Int) : EmailMap :=
  match form.guid.orElse (fun _ => form.formId.orElse (fun _ => form.id)) with
  | none => []
  | some g =>
    if g = "" then []
    else
      (formYield dateParse cutoff maxPerForm pages 0).foldl
        (fileSubmissionStep (mkEntry (form.name.getD g) g)) []

/-- A known form together with the page source its submissions come from. -/
abbrev FormSource := Form × List FormPage

/-- The `byEmail.get(email).push(...entries)` accumulation pattern shared by
`fetchNewestFormSubmissionsOnly` and `runFullFetch`. -/
def emapAppendInto (into : EmailMap) (m : EmailMap) : EmailMap :=
  m.foldl (fun acc p => jmSet acc p.1 (((jmGet acc p.1).getD []) ++ p.2)) into

/-- `FORM_SUBMISSIONS_PAGE_SIZE` (Forms v1 max). -/
def formSubmissionsPageSize : Nat := 50

/-- `fetchNewestFormSubmissionsOnly`: per form, collect with
`maxPerForm := FORM_SUBMISSIONS_PAGE_SIZE` (one newest page), accumulating
into one `byEmail` map. -/
def fetchNewestFormSubmissionsOnly (dateParse : String → Option Int)
    (formSources : List FormSource) (cutoff : Int) : EmailMap :=
  formSources.foldl
    (fun acc fs =>
      emapAppendInto acc
        (collectFormSubmissionsForForm dateParse fs.1 fs.2 formSubmissionsPageSize cutoff))
    []

/-- The sequential (`concurrency <= 1`) `runFullFetch` helper of
`buildFormSubmissionsByEmail`: collect every form to its configured depth
into one `byEmail` map. -/
def runFullFetch (dateParse : String → Option Int) (formSources : List FormSource)
    (maxPerForm : Nat) (cutoff : Int) : EmailMap :=
  formSources.foldl
    (fun acc fs =>
      emapAppendInto acc
        (collectFormSubmissionsForForm dateParse fs.1 fs.2 maxPerForm cutoff))
    []

/-- One page of the contact search API: `response.results` plus
`response.paging?.next?.after` (a string cursor, checked for truthiness). -/
abbrev SearchPage (α : Type) := List α × Option String

/-- The contacts yielded by `searchContacts` over a finite page source:
stops on an empty page; when `maxContacts > 0` and the running total would
exceed it, yields the page trimmed to exactly reach `maxContacts` and stops;
otherwise yields the page and continues only on a truthy cursor. -/
def searchYield (maxContacts : Nat) : List (SearchPage α) → Nat → List α
  | [], _ => []
  | (results, next) :: rest, total =>
    if results.isEmpty then []
    else
      let total' := total + results.length
      if 0 < maxContacts ∧ maxContacts < total' then
        results.take (results.length - (total' - maxContacts))
      else
        results ++ (if strTruthy next then searchYield maxContacts rest total' else [])

/-- Fueled worker for `chunksOf` (the fuel only bounds the iteration count
so the recursion is structural; `l.length` is always enough fuel since each
iteration drops at least one element when `b > 0`). -/
def chunksOfGo (b : Nat) : Nat → List α → List (List α)
  | 0, _ => []
  | _, [] => []
  | fuel + 1, x :: xs =>
    if b = 0 then []
    else (x :: xs).take b :: chunksOfGo b fuel ((x :: xs).drop b)

/-- The contiguous windows walked by the `for (let i = 0; i < len; i += b)`
batch loops: `slice(i, i + b)` for each window start. -/
def chunksOf (b : Nat) (l : List α) : List (List α) :=
  chunksOfGo b l.length l

/-- `ASSOCIATIONS_BATCH_SIZE` (v4 batch read limit). -/
def associationsBatchSize : Nat := 1000

/-- `DEALS_BATCH_SIZE` (HubSpot batch read limit). -/
def dealsBatchSize : Nat := 100

/-- One element of an association batch response:
`{ from: { id }, to: [{ toObjectId }] }` with the ids already stringified. -/
structure AssocResult where
  fromId : Option String
  toIds : List String
deriving DecidableEq, Repr

/-- The response-processing loop of `getAssociationIds`: for each result
with a non-absent `from.id`, concatenate its `to` ids onto that id's list
(creating the binding when absent). -/
def applyAssocResults : List (String × List String) → List AssocResult →
    List (String × List String)
  | m, [] => m
  | m, r :: rest =>
    applyAssocResults
      (match r.fromId with
       | none => m
       | some f => jmSet m f (((jmGet m f).getD []) ++ r.toIds))
      rest

/-- `getAssociationIds`: a map seeded with `[]` for every requested contact
id, then folded over the batch windows' responses. The remote call is the
`fetch` parameter, invoked once per window. -/
def getAssociationIds (fetch : List String → List AssocResult)
    (contactIds : List String) : List (String × List String) :=
  (chunksOf associationsBatchSize contactIds).foldl
    (fun m b => applyAssocResults m (fetch b))
    (contactIds.foldl (fun m cid => jmSet m cid []) [])

/-- Fueled worker for `jsSetDedup` (`l.length` is always enough fuel since
each iteration consumes the head). -/
def jsSetDedupGo : Nat → List String → List String
  | 0, _ => []
  | _, [] => []
  | fuel + 1, a :: l => a :: jsSetDedupGo fuel (l.filter (fun x => x != a))

/-- `[...new Set(ids)]`: first-occurrence-order deduplication. -/
def jsSetDedup (l : List String) : List String :=
  jsSetDedupGo l.length l

/-- One deal object of a deals batch-read response (id stringified,
properties possibly absent). -/
structure DealResult where
  id : String
  dealname : Option String
  amount : Option String
  dealstage : Option String
deriving DecidableEq, Repr

/-- The deal display attributes `fetchDealDetails` builds, with the
placeholder defaults of the source. -/
structure DealProps where
  dealname : String
  amount : String
  dealstage : String
deriving DecidableEq, Repr

/-- The batch windows the `fetchDealDetails` loop iterates: the input id
list is deduplicated through a `Set` before chunking. -/
def fetchDealDetailsWindows (dealIds : List String) : List (List String) :=
  chunksOf dealsBatchSize (jsSetDedup dealIds)

/-- `fetchDealDetails`: dedup, early-return the empty map on an empty
unique-id list, else fold the batch responses into an id-keyed map. -/
def fetchDealDetails (fetch : List String → List DealResult)
    (dealIds : List String) : List (String × DealProps) :=
  let uniqueIds := jsSetDedup dealIds
  if uniqueIds = [] then []
  else
    (chunksOf dealsBatchSize uniqueIds).foldl
      (fun m b =>
        (fetch b).foldl
          (fun m deal =>
            jmSet m deal.id
              ⟨deal.dealname.getD "(no name)", deal.amount.getD "(no amount)",
                deal.dealstage.getD "(no stage)"⟩)
          m)
      []

/-- Per-contact engagement counts. -/
structure EngCounts where
  opens : Nat
  clicks : Nat
deriving DecidableEq, Repr

/-- One page of the events API: the results' `eventType` names plus the
continuation cursor `response.paging?.next?.after`. -/
abbrev EventPage := List String × Option String

/-- The per-event tally of `fetchContactEmailEngagementCounts`: an event
whose type strictly equals the resolved open (resp. click) type name bumps
that counter. -/
def tallyEvents (eventTypeOpen eventTypeClick : Option String)
    (events : List String) (c : EngCounts) : EngCounts :=
  events.foldl
    (fun c t =>
      let c := if eventTypeOpen = some t then { c with opens := c.opens + 1 } else c
      if eventTypeClick = some t then { c with clicks := c.clicks + 1 } else c)
    c

/-- The `try { do ... while (after) } catch` loop for one contact: each
element is one page fetch's outcome (`Except` status code). A failed fetch
is caught and the counts accumulated so far are kept; a successful page is
tallied and the loop continues only on a truthy cursor
(`after = next || null`). -/
def runEventLoop (eventTypeOpen eventTypeClick : Option String) :
    List (Except Nat EventPage) → EngCounts → EngCounts
  | [], c => c
  | .error _ :: _, c => c
  | .ok (events, next) :: rest, c =>
    let c' := tallyEvents eventTypeOpen eventTypeClick events c
    if strTruthy next then runEventLoop eventTypeOpen eventTypeClick rest c'
    else c'

/-- `fetchContactEmailEngagementCounts`: seed every contact id with zero
counts; return that map unchanged when neither event type resolved (falsy
check); otherwise run the caught event loop per contact, with `eventLog`
modelling the remote per-contact page outcomes. -/
def fetchContactEmailEngagementCounts (eventTypeOpen eventTypeClick : Option String)
    (eventLog : String → List (Except Nat EventPage)) (contactIds : List String) :
    List (String × EngCounts) :=
  if !strTruthy eventTypeOpen && !strTruthy eventTypeClick then
    contactIds.foldl (fun m cid => jmSet m cid ⟨0, 0⟩) []
  else
    contactIds.foldl
      (fun m cid =>
        jmSet m cid (runEventLoop eventTypeOpen eventTypeClick (eventLog cid) ⟨0, 0⟩))
      (contactIds.foldl (fun m cid => jmSet m cid ⟨0, 0⟩) [])

/-- A well-formed finite search page source: every page nonempty, every page
but the last carrying a truthy continuation cursor. -/
def wfSearchSource : List (SearchPage α) → Bool
  | [] => true
  | (results, _) :: [] => !results.isEmpty
  | (results, next) :: p :: rest =>
    !results.isEmpty && strTruthy next && wfSearchSource (p :: rest)

/-- A well-formed finite form-submission page source: every page nonempty,
every page but the last carrying a continuation cursor. -/
def wfFormSource : List FormPage → Bool
  | [] => true
  | (results, _) :: [] => !results.isEmpty
  | (results, next) :: p :: rest =>
    !results.isEmpty && next.isSome && wfFormSource (p :: rest)

/-- Total number of entries across all emails of a `byEmail` map. -/
def countEntries (m : EmailMap) : Nat :=
  (m.map (fun p => p.2.length)).sum

/-- The spec's cache invariant: within one email's sequence, no two entries
share the same composite key. -/
def cacheHasDistinctKeys (m : EmailMap) : Prop :=
  ∀ p ∈ m, (p.2.map keyOf).Nodup

instance : DecidablePred cacheHasDistinctKeys := fun m =>
  inferInstanceAs (Decidable (∀ p ∈ m, (p.2.map keyOf).Nodup))

/-! ## Map lemmas -/

theorem jmGet_jmSet_self (m : List (String × α)) (k : String) (v : α) :
    jmGet (jmSet m k v) k = some v := by
  induction m with
  | nil => simp [jmGet, jmSet]
  | cons p rest ih =>
    by_cases h : p.1 = k
    · simp [jmGet, jmSet, h]
    · simp [jmGet, jmSet, h, ih]

theorem jmGet_jmSet_ne (m : List (String × α)) (k k' : String) (v : α)
    (h : k ≠ k') : jmGet (jmSet m k v) k' = jmGet m k' := by
  induction m with
  | nil => simp [jmGet, jmSet, Ne.symm h, h]
  | cons p rest ih =>
    obtain ⟨k1, v1⟩ := p
    by_cases hp : k1 = k
    · subst hp
      simp [jmGet, jmSet, Ne.symm h, h]
    · by_cases hp' : k1 = k'
      · simp [jmGet, jmSet, hp, hp', Ne.symm h]
      · simp [jmGet, jmSet, hp, hp', ih]

theorem jmGet_mem (m : List (String × α)) (k : String) (v : α)
    (h : jmGet m k = some v) : (k, v) ∈ m := by
  induction m with
  | nil => simp [jmGet] at h
  | cons p rest ih =>
    obtain ⟨k1, v1⟩ := p
    by_cases hp : k1 = k
    · subst hp
      simp only [jmGet, if_pos rfl] at h
      injection h with h
      subst h
      exact List.mem_cons_self _ _
    · simp only [jmGet, if_neg hp] at h
      exact List.mem_cons_of_mem _ (ih h)

theorem mem_jmSet (m : List (String × α)) (k : String) (v : α) (p : String × α)
    (h : p ∈ jmSet m k v) : p ∈ m ∨ p = (k, v) := by
  induction m with
  | nil => simp [jmSet] at h; simp [h]
  | cons q rest ih =>
    by_cases hq : q.1 = k
    · simp only [jmSet, hq, if_pos] at h
      rcases List.mem_cons.mp h with h | h
      · right; exact h
      · left; exact List.mem_cons_of_mem _ h
    · simp only [jmSet, hq, if_neg, not_false_iff] at h
      rcases List.mem_cons.mp h with h | h
      · left; exact h ▸ List.mem_cons_self _ _
      · rcases ih h with h | h
        · left; exact List.mem_cons_of_mem _ h
        · right; exact h

/-! ## Merge lemmas -/

theorem mergeEntry_append_of_no_match (l : List Entry) (e : Entry)
    (h : ∀ x ∈ l, keyOf x ≠ keyOf e) : mergeEntry l e = l ++ [e] := by
  induction l with
  | nil => rfl
  | cons x rest ih =>
    have hx : keyOf x ≠ keyOf e := h x (List.mem_cons_self _ _)
    simp only [mergeEntry, if_neg hx, List.cons_append, List.cons.injEq, true_and]
    exact ih fun y hy => h y (List.mem_cons_of_mem _ hy)

theorem mergeEntry_overwrite_first_match (l₁ l₂ : List Entry) (x e : Entry)
    (hx : keyOf x = keyOf e) (h : ∀ y ∈ l₁, keyOf y ≠ keyOf e) :
    mergeEntry (l₁ ++ x :: l₂) e = l₁ ++ e :: l₂ := by
  induction l₁ with
  | nil => simp [mergeEntry, hx]
  | cons y rest ih =>
    have hy : keyOf y ≠ keyOf e := h y (List.mem_cons_self _ _)
    simp only [List.cons_append, mergeEntry, if_neg hy, List.cons.injEq, true_and]
    exact ih fun z hz => h z (List.mem_cons_of_mem _ hz)

/-- What `mergeFormSubmissionsIntoCache` does to the binding of one email,
expressed as a fold over the delta's per-email groups. -/
def applyFresh (fresh : EmailMap) (email : String) (v : Option (List Entry)) :
    Option (List Entry) :=
  fresh.foldl
    (fun v p => if p.1 = email then some (p.2.foldl mergeEntry (v.getD [])) else v) v

theorem merge_jmGet (fresh cached : EmailMap) (email : String) :
    jmGet (mergeFormSubmissionsIntoCache cached fresh) email =
      applyFresh fresh email (jmGet cached email) := by
  induction fresh generalizing cached with
  | nil => rfl
  | cons p rest ih =>
    show jmGet (mergeFormSubmissionsIntoCache
        (jmSet cached p.1 (p.2.foldl mergeEntry ((jmGet cached p.1).getD []))) rest) email = _
    rw [ih]
    by_cases hp : p.1 = email
    · subst hp
      simp [applyFresh, List.foldl_cons, jmGet_jmSet_self]
    · simp [applyFresh, List.foldl_cons, hp, jmGet_jmSet_ne _ _ _ _ hp]

theorem applyFresh_of_not_mem (fresh : EmailMap) (email : String)
    (v : Option (List Entry)) (h : email ∉ fresh.map Prod.fst) :
    applyFresh fresh email v = v := by
  induction fresh generalizing v with
  | nil => rfl
  | cons p rest ih =>
    simp only [List.map_cons, List.mem_cons, not_or] at h
    simp [applyFresh, List.foldl_cons, Ne.symm h.1]
    exact ih _ h.2

theorem applyFresh_of_mem :
    ∀ (fresh : EmailMap) (email : String) (es : List Entry)
      (v : Option (List Entry)), (email, es) ∈ fresh →
      (fresh.map Prod.fst).Nodup →
      applyFresh fresh email v = some (es.foldl mergeEntry (v.getD [])) := by
  intro fresh
  induction fresh with
  | nil =>
    intro email es v hmem
    simp at hmem
  | cons p rest ih =>
    intro email es v hmem hnd
    simp only [List.map_cons, List.nodup_cons] at hnd
    rcases List.mem_cons.mp hmem with h | h
    · subst h
      show applyFresh rest email (if email = email then _ else _) = _
      simp only [if_pos rfl]
      exact applyFresh_of_not_mem rest email _ hnd.1
    · have hne : p.1 ≠ email := by
        intro hcontra
        exact hnd.1 (hcontra ▸ List.mem_map.mpr ⟨(email, es), h, rfl⟩)
      show applyFresh rest email (if p.1 = email then _ else _) = _
      rw [if_neg hne]
      exact ih email es v h hnd.2

theorem merge_jmGet_of_mem (cached fresh : EmailMap) (email : String)
    (es : List Entry) (hmem : (email, es) ∈ fresh)
    (hnd : (fresh.map Prod.fst).Nodup) :
    jmGet (mergeFormSubmissionsIntoCache cached fresh) email =
      some (es.foldl mergeEntry ((jmGet cached email).getD [])) := by
  rw [merge_jmGet]
  exact applyFresh_of_mem fresh email es _ hmem hnd

theorem keyOf_mem_mergeEntry (l : List Entry) (e : Entry) (k : String)
    (h : k ∈ (mergeEntry l e).map keyOf) : k ∈ l.map keyOf ∨ k = keyOf e := by
  induction l with
  | nil =>
    simp only [mergeEntry, List.map_cons, List.map_nil, List.mem_singleton] at h
    right; exact h
  | cons x rest ih =>
    by_cases hx : keyOf x = keyOf e
    · simp only [mergeEntry, if_pos hx, List.map_cons] at h
      rcases List.mem_cons.mp h with h | h
      · right; exact h
      · left
        simp only [List.map_cons]
        exact List.mem_cons_of_mem _ h
    · simp only [mergeEntry, if_neg hx, List.map_cons] at h
      rcases List.mem_cons.mp h with h | h
      · left; simp [List.map_cons, h]
      · rcases ih h with h | h
        · left
          simp only [List.map_cons]
          exact List.mem_cons_of_mem _ h
        · right; exact h

theorem nodup_keys_mergeEntry (l : List Entry) (e : Entry)
    (h : (l.map keyOf).Nodup) : ((mergeEntry l e).map keyOf).Nodup := by
  induction l with
  | nil => simp [mergeEntry]
  | cons x rest ih =>
    simp only [List.map_cons, List.nodup_cons] at h
    by_cases hx : keyOf x = keyOf e
    · simp only [mergeEntry, if_pos hx, List.map_cons, List.nodup_cons]
      exact ⟨hx ▸ h.1, h.2⟩
    · simp only [mergeEntry, if_neg hx, List.map_cons, List.nodup_cons]
      refine ⟨fun hmem => ?_, ih h.2⟩
      rcases keyOf_mem_mergeEntry rest e _ hmem with hm | hm
      · exact h.1 hm
      · exact hx hm

theorem nodup_keys_foldl_mergeEntry (es : List Entry) (base : List Entry)
    (h : (base.map keyOf).Nodup) : ((es.foldl mergeEntry base).map keyOf).Nodup := by
  induction es generalizing base with
  | nil => exact h
  | cons e rest ih => exact ih _ (nodup_keys_mergeEntry base e h)

theorem merge_preserves_distinct_keys (cached fresh : EmailMap)
    (h : cacheHasDistinctKeys cached) :
    cacheHasDistinctKeys (mergeFormSubmissionsIntoCache cached fresh) := by
  induction fresh generalizing cached with
  | nil => exact h
  | cons p rest ih =>
    have hstep : cacheHasDistinctKeys
        (jmSet cached p.1 (p.2.foldl mergeEntry ((jmGet cached p.1).getD []))) := by
      intro q hq
      rcases mem_jmSet _ _ _ _ hq with hq | hq
      · exact h q hq
      · subst hq
        apply nodup_keys_foldl_mergeEntry
        cases hbase : jmGet cached p.1 with
        | none => simp
        | some l => simpa using h (p.1, l) (jmGet_mem _ _ _ hbase)
    exact ih _ hstep

/-! ## Concrete fixtures -/

/-- The cached entry of the spec's merge scenario: form F1, conversion C1,
timestamp 100. -/
def entryF1C1ts100 : Entry := ⟨none, some "F1", .num 100, none, some "C1", []⟩

/-- The overwriting delta entry: form F1, conversion C1, timestamp 200. -/
def entryF1C1ts200 : Entry := ⟨none, some "F1", .num 200, none, some "C1", []⟩

/-- The appended delta entry: form F1, conversion C2, timestamp 300. -/
def entryF1C2ts300 : Entry := ⟨none, some "F1", .num 300, none, some "C2", []⟩

/-- A form whose guid resolves to `"f1"`. -/
def exampleForm : Form := ⟨some "f1", none, none, some "Form One"⟩

/-- A submission by `a@x.com` with no conversion id, timestamp 100. -/
def exampleSubTs100 : Sub := ⟨none, .num 100, none, some [⟨some "email", some "a@x.com"⟩]⟩

/-- A second submission by `a@x.com` with no conversion id, timestamp 200. -/
def exampleSubTs200 : Sub := ⟨none, .num 200, none, some [⟨some "email", some "a@x.com"⟩]⟩

/-! ## Claim C1 -/

/-- C1: `mergeFormSubmissionsIntoCache` processes each delta entry by its
composite key within that email's existing list — overwriting in place at
the first matching position, appending at the end when no entry matches —
and on the spec's concrete scenario (cache `a@x.com → [{F1,C1,ts100}]`,
delta `a@x.com → [{F1,C1,ts200},{F1,C2,ts300}]`) produces exactly
`[{F1,C1,ts200},{F1,C2,ts300}]`. -/
theorem claim_C1_merge_overwrite_or_append :
    (∀ (l : List Entry) (e : Entry), (∀ x ∈ l, keyOf x ≠ keyOf e) →
      mergeEntry l e = l ++ [e]) ∧
    (∀ (l₁ l₂ : List Entry) (x e : Entry), keyOf x = keyOf e →
      (∀ y ∈ l₁, keyOf y ≠ keyOf e) →
      mergeEntry (l₁ ++ x :: l₂) e = l₁ ++ e :: l₂) ∧
    (∀ (cached fresh : EmailMap) (email : String) (es : List Entry),
      (email, es) ∈ fresh → (fresh.map Prod.fst).Nodup →
      jmGet (mergeFormSubmissionsIntoCache cached fresh) email =
        some (es.foldl mergeEntry ((jmGet cached email).getD []))) ∧
    mergeFormSubmissionsIntoCache [("a@x.com", [entryF1C1ts100])]
        [("a@x.com", [entryF1C1ts200, entryF1C2ts300])] =
      [("a@x.com", [entryF1C1ts200, entryF1C2ts300])] :=
  ⟨mergeEntry_append_of_no_match,
   mergeEntry_overwrite_first_match,
   fun cached fresh email es hmem hnd => merge_jmGet_of_mem cached fresh email es hmem hnd,
   by decide⟩

/-- Witness for C1 at concrete inputs: an entry with a fresh key is
appended, an entry with a matching key overwrites in place. -/
theorem claim_C1_witness :
    mergeEntry [entryF1C1ts100] entryF1C2ts300 = [entryF1C1ts100, entryF1C2ts300] ∧
    mergeEntry [entryF1C1ts100] entryF1C1ts200 = [entryF1C1ts200] :=
  ⟨claim_C1_merge_overwrite_or_append.1 [entryF1C1ts100] entryF1C2ts300 (by decide),
   claim_C1_merge_overwrite_or_append.2.1 [] [] entryF1C1ts100 entryF1C1ts200
     (by decide) (by decide)⟩

/-! ## Claim C2 -/

/-- C2 counterexample: the first-run full-fetch baseline does not satisfy
the per-email distinct-composite-key invariant — two submissions by the
same email with `null` conversion ids on the same form land as two entries
sharing the composite key `"f1:"`. -/
theorem claim_C2_counterexample :
    ¬ cacheHasDistinctKeys
      (runFullFetch (fun _ => none)
        [(exampleForm, [([exampleSubTs100, exampleSubTs200], none)])] 0 0) := by
  decide

/-- C2 (amended): the incremental merge preserves the invariant — if the
loaded cache has no two entries of one email sharing a composite key, the
merged cache does not either, for every delta. -/
theorem claim_C2_merge_preserves_invariant (cached fresh : EmailMap)
    (h : cacheHasDistinctKeys cached) :
    cacheHasDistinctKeys (mergeFormSubmissionsIntoCache cached fresh) :=
  merge_preserves_distinct_keys cached fresh h

/-- Witness for C2 at concrete inputs. -/
theorem claim_C2_witness :
    cacheHasDistinctKeys
      (mergeFormSubmissionsIntoCache [("a@x.com", [entryF1C1ts100])]
        [("a@x.com", [entryF1C1ts200, entryF1C2ts300])]) :=
  claim_C2_merge_preserves_invariant [("a@x.com", [entryF1C1ts100])]
    [("a@x.com", [entryF1C1ts200, entryF1C2ts300])] (by decide)

/-! ## Claim C9 -/

/-- C9: merging deltas with disjoint email-key sets commutes — every
email's binding is the same whichever of the two deltas is merged first. -/
theorem claim_C9_merge_disjoint_commutes (cache A B : EmailMap)
    (hdisj : ∀ em ∈ A.map Prod.fst, em ∉ B.map Prod.fst) (email : String) :
    jmGet (mergeFormSubmissionsIntoCache (mergeFormSubmissionsIntoCache cache A) B) email =
      jmGet (mergeFormSubmissionsIntoCache (mergeFormSubmissionsIntoCache cache B) A) email := by
  rw [merge_jmGet, merge_jmGet, merge_jmGet, merge_jmGet]
  by_cases hA : email ∈ A.map Prod.fst
  · have hB : email ∉ B.map Prod.fst := hdisj email hA
    rw [applyFresh_of_not_mem B email _ hB, applyFresh_of_not_mem B email _ hB]
  · rw [applyFresh_of_not_mem A email _ hA, applyFresh_of_not_mem A email _ hA]

/-- Witness for C9 at concrete inputs: two single-email deltas with
different emails merge to the same binding in either order. -/
theorem claim_C9_witness :
    jmGet (mergeFormSubmissionsIntoCache
        (mergeFormSubmissionsIntoCache [("a@x.com", [entryF1C1ts100])]
          [("a@x.com", [entryF1C1ts200])])
        [("b@x.com", [entryF1C2ts300])]) "b@x.com" =
      jmGet (mergeFormSubmissionsIntoCache
        (mergeFormSubmissionsIntoCache [("a@x.com", [entryF1C1ts100])]
          [("b@x.com", [entryF1C2ts300])])
        [("a@x.com", [entryF1C1ts200])]) "b@x.com" :=
  claim_C9_merge_disjoint_commutes [("a@x.com", [entryF1C1ts100])]
    [("a@x.com", [entryF1C1ts200])] [("b@x.com", [entryF1C2ts300])]
    (by decide) "b@x.com"

/-! ## Claim C10 -/

/-- C10: entries missing both `formGuid` and `conversionId` all share the
composite key `":"`, so a delta entry with both identifiers absent
overwrites an existing identifier-less entry of the same email even when
the two entries are otherwise entirely different — they are never both
retained. -/
theorem claim_C10_identifierless_entries_collide (em : String) (e₁ e₂ : Entry)
    (h₁ : e₁.formGuid = none) (h₂ : e₁.conversionId = none)
    (h₃ : e₂.formGuid = none) (h₄ : e₂.conversionId = none) :
    keyOf e₁ = keyOf e₂ ∧
    mergeFormSubmissionsIntoCache [(em, [e₁])] [(em, [e₂])] = [(em, [e₂])] := by
  have hk : keyOf e₁ = keyOf e₂ := by simp [keyOf, h₁, h₂, h₃, h₄]
  refine ⟨hk, ?_⟩
  simp [mergeFormSubmissionsIntoCache, jmGet, jmSet, mergeEntry, hk]

/-- Witness for C10 at concrete identifier-less entries that differ in
every other field. -/
theorem claim_C10_witness :
    keyOf (⟨some "n1", none, .num 100, some "u1", none, []⟩ : Entry) =
        keyOf (⟨some "n2", none, .num 200, some "u2", none, []⟩ : Entry) ∧
    mergeFormSubmissionsIntoCache
        [("a@x.com", [⟨some "n1", none, .num 100, some "u1", none, []⟩])]
        [("a@x.com", [⟨some "n2", none, .num 200, some "u2", none, []⟩])] =
      [("a@x.com", [⟨some "n2", none, .num 200, some "u2", none, []⟩])] :=
  claim_C10_identifierless_entries_collide "a@x.com" _ _ rfl rfl rfl rfl

/-! ## Batch-chunking lemmas -/

theorem chunksOfGo_nil (b fuel : Nat) : chunksOfGo b fuel ([] : List α) = [] := by
  cases fuel <;> rfl

theorem chunksOfGo_flatten (b : Nat) (hb : 0 < b) :
    ∀ (fuel : Nat) (l : List α), l.length ≤ fuel →
      (chunksOfGo b fuel l).flatten = l := by
  intro fuel
  induction fuel with
  | zero =>
    intro l hl
    have : l = [] := List.eq_nil_of_length_eq_zero (Nat.le_zero.mp hl)
    subst this
    rfl
  | succ fuel ih =>
    intro l hl
    cases l with
    | nil => rfl
    | cons x xs =>
      show ((if b = 0 then [] else _) : List (List α)).flatten = _
      rw [if_neg (Nat.pos_iff_ne_zero.mp hb)]
      have hlen : ((x :: xs).drop b).length ≤ fuel := by
        simp only [List.length_drop, List.length_cons] at *
        omega
      simp only [List.flatten_cons, ih _ hlen, List.take_append_drop]

theorem chunksOfGo_length (b : Nat) (hb : 0 < b) :
    ∀ (fuel : Nat) (l : List α), l.length ≤ fuel →
      (chunksOfGo b fuel l).length = (l.length + b - 1) / b := by
  intro fuel
  induction fuel with
  | zero =>
    intro l hl
    have : l = [] := List.eq_nil_of_length_eq_zero (Nat.le_zero.mp hl)
    subst this
    rw [chunksOfGo_nil]
    simp [Nat.div_eq_of_lt (by omega : b - 1 < b)]
  | succ fuel ih =>
    intro l hl
    cases l with
    | nil =>
      rw [chunksOfGo_nil]
      simp [Nat.div_eq_of_lt (by omega : b - 1 < b)]
    | cons x xs =>
      show ((if b = 0 then [] else _) : List (List α)).length = _
      rw [if_neg (Nat.pos_iff_ne_zero.mp hb)]
      have hlen : ((x :: xs).drop b).length ≤ fuel := by
        simp only [List.length_drop, List.length_cons] at *
        omega
      simp only [List.length_cons, ih _ hlen, List.length_drop, List.length_cons]
      by_cases hcase : b ≤ xs.length + 1
      · have h1 : xs.length + 1 - b + b - 1 = xs.length := by omega
        have h2 : xs.length + 1 + b - 1 = xs.length + b := by omega
        rw [h1, h2, Nat.add_div_right _ hb]
      · have h1 : xs.length + 1 - b = 0 := by omega
        rw [h1]
        have h2 : (0 + b - 1) / b = 0 := Nat.div_eq_of_lt (by omega)
        rw [h2]
        have h3 : (xs.length + 1 + b - 1) / b = 1 := by
          apply Nat.div_eq_of_lt_le
          · omega
          · simp only [Nat.succ_mul, Nat.one_mul]
            omega
        omega

theorem chunksOfGo_size (b : Nat) :
    ∀ (fuel : Nat) (l : List α) (c : List α), c ∈ chunksOfGo b fuel l →
      c.length ≤ b := by
  intro fuel
  induction fuel with
  | zero =>
    intro l c hc
    simp [chunksOfGo] at hc
  | succ fuel ih =>
    intro l c hc
    cases l with
    | nil => simp [chunksOfGo] at hc
    | cons x xs =>
      by_cases hb : b = 0
      · simp [chunksOfGo, hb] at hc
      · simp only [chunksOfGo, if_neg hb] at hc
        rcases List.mem_cons.mp hc with h | h
        · subst h
          simp only [List.length_take]
          omega
        · exact ih _ c h

theorem chunksOf_flatten (b : Nat) (hb : 0 < b) (l : List α) :
    (chunksOf b l).flatten = l :=
  chunksOfGo_flatten b hb l.length l le_rfl

theorem chunksOf_length (b : Nat) (hb : 0 < b) (l : List α) :
    (chunksOf b l).length = (l.length + b - 1) / b :=
  chunksOfGo_length b hb l.length l le_rfl

theorem chunksOf_size (b : Nat) (l : List α) (c : List α)
    (hc : c ∈ chunksOf b l) : c.length ≤ b :=
  chunksOfGo_size b l.length l c hc

/-! ## Association-map lemmas -/

theorem jmGet_foldl_seed (ids : List String) (m0 : List (String × List String))
    (id : String) :
    jmGet (ids.foldl (fun m cid => jmSet m cid []) m0) id =
      if id ∈ ids then some [] else jmGet m0 id := by
  induction ids generalizing m0 with
  | nil => simp
  | cons i rest ih =>
    simp only [List.foldl_cons]
    rw [ih]
    by_cases hmem : id ∈ rest
    · simp [hmem]
    · rw [if_neg hmem]
      by_cases hid : i = id
      · subst hid
        simp [jmGet_jmSet_self]
      · rw [jmGet_jmSet_ne _ _ _ _ hid,
          if_neg (by simp only [List.mem_cons, not_or]
                     exact ⟨fun h => hid h.symm, hmem⟩)]

theorem applyAssocResults_untouched (rs : List AssocResult)
    (m : List (String × List String)) (id : String)
    (h : ∀ r ∈ rs, r.fromId ≠ some id) :
    jmGet (applyAssocResults m rs) id = jmGet m id := by
  induction rs generalizing m with
  | nil => rfl
  | cons r rest ih =>
    simp only [applyAssocResults]
    rw [ih _ fun r' h' => h r' (List.mem_cons_of_mem _ h')]
    cases hr : r.fromId with
    | none => rfl
    | some f =>
      have hf : f ≠ id := by
        intro hcontra
        exact h r (List.mem_cons_self _ _) (by rw [hr, hcontra])
      exact jmGet_jmSet_ne _ _ _ _ hf

theorem applyAssocResults_isSome (rs : List AssocResult)
    (m : List (String × List String)) (id : String)
    (h : (jmGet m id).isSome) :
    (jmGet (applyAssocResults m rs) id).isSome := by
  induction rs generalizing m with
  | nil => exact h
  | cons r rest ih =>
    simp only [applyAssocResults]
    apply ih
    cases hr : r.fromId with
    | none => exact h
    | some f =>
      by_cases hf : f = id
      · subst hf
        simp [jmGet_jmSet_self]
      · rw [jmGet_jmSet_ne _ _ _ _ hf]
        exact h

theorem assocWindows_fold_untouched (fetch : List String → List AssocResult)
    (ws : List (List String)) (m : List (String × List String)) (id : String)
    (h : ∀ b ∈ ws, ∀ r ∈ fetch b, r.fromId ≠ some id) :
    jmGet (ws.foldl (fun m b => applyAssocResults m (fetch b)) m) id = jmGet m id := by
  induction ws generalizing m with
  | nil => rfl
  | cons b rest ih =>
    simp only [List.foldl_cons]
    rw [ih _ fun b' hb' => h b' (List.mem_cons_of_mem _ hb'),
      applyAssocResults_untouched _ _ _ (h b (List.mem_cons_self _ _))]

theorem assocWindows_fold_isSome (fetch : List String → List AssocResult)
    (ws : List (List String)) (m : List (String × List String)) (id : String)
    (h : (jmGet m id).isSome) :
    (jmGet (ws.foldl (fun m b => applyAssocResults m (fetch b)) m) id).isSome := by
  induction ws generalizing m with
  | nil => exact h
  | cons b rest ih =>
    simp only [List.foldl_cons]
    exact ih _ (applyAssocResults_isSome _ _ _ h)

/-! ## Claim C5 -/

/-- A 101-element deal-id list containing a duplicate (`"0"` twice). -/
def dealIdsWithDup : List String :=
  (List.range 100).map (fun n => toString n) ++ ["0"]

set_option maxRecDepth 40000 in
/-- C5 counterexample: the deal batch loop deduplicates its input before
chunking, so on a 101-element input list containing a duplicate it issues
1 fetch, not `ceil(101 / 100) = 2` — the invocation count is not
`ceil(n / b)` in the raw input length `n`. -/
theorem claim_C5_counterexample :
    (fetchDealDetailsWindows dealIdsWithDup).length ≠
      (dealIdsWithDup.length + dealsBatchSize - 1) / dealsBatchSize := by
  decide

/-- C5 (amended): each batch loop chunks the list it iterates into
contiguous windows of size at most the batch ceiling, covering that list
exactly (so the fetch is invoked `ceil(m / b)` times where `m` is the
length of the chunked list: the raw input for the association read, the
deduplicated id list for the deal read), and an empty input issues zero
fetches and returns the initial accumulator unchanged. -/
theorem claim_C5_batch_chunking :
    (∀ contactIds : List String,
      (chunksOf associationsBatchSize contactIds).length =
        (contactIds.length + associationsBatchSize - 1) / associationsBatchSize ∧
      (chunksOf associationsBatchSize contactIds).flatten = contactIds ∧
      ∀ w ∈ chunksOf associationsBatchSize contactIds,
        w.length ≤ associationsBatchSize) ∧
    (∀ dealIds : List String,
      (fetchDealDetailsWindows dealIds).length =
        ((jsSetDedup dealIds).length + dealsBatchSize - 1) / dealsBatchSize ∧
      (fetchDealDetailsWindows dealIds).flatten = jsSetDedup dealIds ∧
      ∀ w ∈ fetchDealDetailsWindows dealIds, w.length ≤ dealsBatchSize) ∧
    (∀ fetch, getAssociationIds fetch [] = []) ∧
    (∀ fetch, fetchDealDetails fetch [] = []) := by
  refine ⟨fun contactIds => ⟨?_, ?_, ?_⟩, fun dealIds => ⟨?_, ?_, ?_⟩,
    fun fetch => rfl, fun fetch => rfl⟩
  · exact chunksOf_length _ (by decide) _
  · exact chunksOf_flatten _ (by decide) _
  · exact fun w hw => chunksOf_size _ _ _ hw
  · exact chunksOf_length _ (by decide) _
  · exact chunksOf_flatten _ (by decide) _
  · exact fun w hw => chunksOf_size _ _ _ hw

/-- Witness for C5 at concrete inputs. -/
theorem claim_C5_witness :
    (["a"] : List String).length ≤ associationsBatchSize ∧
    getAssociationIds (fun _ => []) [] = [] ∧
    fetchDealDetails (fun _ => []) [] = [] :=
  ⟨(claim_C5_batch_chunking.1 ["a"]).2.2 ["a"] (by decide),
   claim_C5_batch_chunking.2.2.1 (fun _ => []),
   claim_C5_batch_chunking.2.2.2 (fun _ => [])⟩

/-! ## Claim C6 -/

/-- C6: every requested contact id has an entry in the aggregation result
(no error for absent ids), and an id absent from every batch response maps
to exactly the empty list. -/
theorem claim_C6_missing_association_resolves_empty
    (fetch : List String → List AssocResult) (contactIds : List String)
    (id : String) (hid : id ∈ contactIds) :
    (∃ l, jmGet (getAssociationIds fetch contactIds) id = some l) ∧
    ((∀ b ∈ chunksOf associationsBatchSize contactIds,
        ∀ r ∈ fetch b, r.fromId ≠ some id) →
      jmGet (getAssociationIds fetch contactIds) id = some []) := by
  have hseed : jmGet (contactIds.foldl
      (fun (m : List (String × List String)) cid => jmSet m cid []) []) id = some [] := by
    rw [jmGet_foldl_seed]
    simp [hid]
  constructor
  · have hsome : (jmGet (getAssociationIds fetch contactIds) id).isSome := by
      apply assocWindows_fold_isSome
      simp [hseed]
    rcases Option.isSome_iff_exists.mp hsome with ⟨l, hl⟩
    exact ⟨l, hl⟩
  · intro habs
    show jmGet ((chunksOf associationsBatchSize contactIds).foldl
      (fun m b => applyAssocResults m (fetch b))
      (contactIds.foldl
        (fun (m : List (String × List String)) cid => jmSet m cid []) [])) id = some []
    rw [assocWindows_fold_untouched fetch _ _ id habs, hseed]

/-- Witness for C6: a response that only mentions contact `"1"` leaves the
requested contact `"2"` bound to the empty list. -/
theorem claim_C6_witness :
    jmGet (getAssociationIds (fun _ => [⟨some "1", ["d1"]⟩]) ["1", "2"]) "2" =
      some [] :=
  (claim_C6_missing_association_resolves_empty
    (fun _ => [⟨some "1", ["d1"]⟩]) ["1", "2"] "2" (by decide)).2 (by decide)

/-! ## Search paginator lemmas -/

theorem wfSearchSource_cons (r : List α) (nx : Option String)
    (rest : List (SearchPage α)) (h : wfSearchSource ((r, nx) :: rest) = true) :
    r ≠ [] ∧ (rest = [] ∨ (strTruthy nx = true ∧ wfSearchSource rest = true)) := by
  cases rest with
  | nil =>
    refine ⟨?_, Or.inl rfl⟩
    simp only [wfSearchSource, Bool.not_eq_true'] at h
    exact fun hcontra => by simp [hcontra] at h
  | cons q rest' =>
    simp only [wfSearchSource, Bool.and_eq_true, Bool.not_eq_true'] at h
    refine ⟨fun hcontra => by simp [hcontra] at h, Or.inr ⟨h.1.2, h.2⟩⟩

theorem searchYield_wf_take (maxC : Nat) (hm : 0 < maxC) :
    ∀ (pages : List (SearchPage α)) (total : Nat), wfSearchSource pages = true →
      total ≤ maxC →
      searchYield maxC pages total = ((pages.map Prod.fst).flatten).take (maxC - total) := by
  intro pages
  induction pages with
  | nil =>
    intro total _ _
    simp [searchYield]
  | cons page rest ih =>
    intro total hwf htot
    obtain ⟨r, nx⟩ := page
    obtain ⟨hr, hrest⟩ := wfSearchSource_cons r nx rest hwf
    have hre : r.isEmpty = false := by simp [List.isEmpty_iff, hr]
    simp only [searchYield, hre, Bool.false_eq_true, if_false]
    by_cases hc : maxC < total + r.length
    · rw [if_pos ⟨hm, hc⟩, List.map_cons, List.flatten_cons,
        List.take_append_eq_append_take]
      have h1 : r.length - (total + r.length - maxC) = maxC - total := by omega
      have h2 : maxC - total - r.length = 0 := by omega
      rw [h1, h2, List.take_zero, List.append_nil]
    · rw [if_neg (by rintro ⟨-, hlt⟩; omega)]
      have htot' : total + r.length ≤ maxC := by omega
      rcases hrest with hnil | ⟨hnx, hwfrest⟩
      · subst hnil
        have hif : (if strTruthy nx then searchYield maxC ([] : List (SearchPage α))
            (total + r.length) else []) = [] := by
          cases strTruthy nx <;> simp [searchYield]
        rw [hif, List.map_cons, List.map_nil, List.flatten_cons, List.flatten_nil,
          List.append_nil, List.take_of_length_le (by omega)]
      · rw [hnx, if_pos rfl, ih _ hwfrest htot', List.map_cons, List.flatten_cons,
          List.take_append_eq_append_take, List.take_of_length_le (by omega : r.length ≤ maxC - total)]
        have h3 : maxC - total - r.length = maxC - (total + r.length) := by omega
        rw [h3]

theorem searchYield_wf_nolimit :
    ∀ (pages : List (SearchPage α)) (total : Nat), wfSearchSource pages = true →
      searchYield 0 pages total = (pages.map Prod.fst).flatten := by
  intro pages
  induction pages with
  | nil =>
    intro total _
    simp [searchYield]
  | cons page rest ih =>
    intro total hwf
    obtain ⟨r, nx⟩ := page
    obtain ⟨hr, hrest⟩ := wfSearchSource_cons r nx rest hwf
    have hre : r.isEmpty = false := by simp [List.isEmpty_iff, hr]
    simp only [searchYield, hre, Bool.false_eq_true, if_false]
    rw [if_neg (by rintro ⟨hlt, -⟩; omega)]
    rcases hrest with hnil | ⟨hnx, hwfrest⟩
    · subst hnil
      have hif : (if strTruthy nx then searchYield 0 ([] : List (SearchPage α))
          (total + r.length) else []) = [] := by
        cases strTruthy nx <;> simp [searchYield]
      rw [hif]
      simp
    · rw [hnx, if_pos rfl, ih _ hwfrest]
      simp

theorem searchYield_length_le (maxC : Nat) (hm : 0 < maxC) :
    ∀ (pages : List (SearchPage α)) (total : Nat), total ≤ maxC →
      (searchYield maxC pages total).length ≤ maxC - total := by
  intro pages
  induction pages with
  | nil =>
    intro total _
    simp [searchYield]
  | cons page rest ih =>
    intro total htot
    obtain ⟨r, nx⟩ := page
    cases hre : r.isEmpty with
    | true => simp [searchYield, hre]
    | false =>
      simp only [searchYield, hre, Bool.false_eq_true, if_false]
      by_cases hc : maxC < total + r.length
      · rw [if_pos ⟨hm, hc⟩]
        simp only [List.length_take]
        omega
      · rw [if_neg (by rintro ⟨-, hlt⟩; omega)]
        by_cases hnx : strTruthy nx = true
        · rw [if_pos hnx]
          have := ih (total + r.length) (by omega)
          simp only [List.length_append]
          omega
        · rw [if_neg hnx]
          simp only [List.length_append, List.length_nil]
          omega

/-! ## Form paginator lemmas -/

theorem wfFormSource_cons (r : List Sub) (nx : Option Nat)
    (rest : List FormPage) (h : wfFormSource ((r, nx) :: rest) = true) :
    r ≠ [] ∧ (rest = [] ∨ (nx.isSome = true ∧ wfFormSource rest = true)) := by
  cases rest with
  | nil =>
    refine ⟨?_, Or.inl rfl⟩
    simp only [wfFormSource, Bool.not_eq_true'] at h
    exact fun hcontra => by simp [hcontra] at h
  | cons q rest' =>
    simp only [wfFormSource, Bool.and_eq_true, Bool.not_eq_true'] at h
    obtain ⟨⟨h1, h2⟩, h3⟩ := h
    refine ⟨fun hcontra => by simp [hcontra] at h1, Or.inr ⟨h2, h3⟩⟩

theorem stopsAtCutoff_zero (dp : String → Option Int) (s : Sub) :
    stopsAtCutoff dp 0 s = false := by
  simp [stopsAtCutoff]

theorem formYieldPage_count (dp : String → Option Int) (cutoff : Int) (maxSub : Nat) :
    ∀ (subs : List Sub) (y : Nat),
      (formYieldPage dp cutoff maxSub subs y).2.2 =
        y + (formYieldPage dp cutoff maxSub subs y).1.length := by
  intro subs
  induction subs with
  | nil =>
    intro y
    simp [formYieldPage]
  | cons s rest ih =>
    intro y
    simp only [formYieldPage]
    by_cases hstop : stopsAtCutoff dp cutoff s = true
    · rw [if_pos hstop]
      simp
    · rw [if_neg hstop]
      by_cases hmax : 0 < maxSub ∧ maxSub ≤ y + 1
      · rw [if_pos hmax]
        simp
      · rw [if_neg hmax]
        simp only [List.length_cons]
        rw [ih (y + 1)]
        omega

theorem formYieldPage_le (dp : String → Option Int) (cutoff : Int) (maxSub : Nat)
    (hm : 0 < maxSub) :
    ∀ (subs : List Sub) (y : Nat), y < maxSub →
      (formYieldPage dp cutoff maxSub subs y).2.2 ≤ maxSub ∧
      ((formYieldPage dp cutoff maxSub subs y).2.1 = false →
        (formYieldPage dp cutoff maxSub subs y).2.2 < maxSub) := by
  intro subs
  induction subs with
  | nil =>
    intro y hy
    simp only [formYieldPage]
    exact ⟨le_of_lt hy, fun _ => hy⟩
  | cons s rest ih =>
    intro y hy
    simp only [formYieldPage]
    by_cases hstop : stopsAtCutoff dp cutoff s = true
    · rw [if_pos hstop]
      refine ⟨le_of_lt hy, fun h => ?_⟩
      simp at h
    · rw [if_neg hstop]
      by_cases hmax : 0 < maxSub ∧ maxSub ≤ y + 1
      · rw [if_pos hmax]
        constructor
        · show y + 1 ≤ maxSub
          omega
        · intro h
          simp at h
      · rw [if_neg hmax]
        have hlt : y + 1 < maxSub := by
          by_contra hcon
          exact hmax ⟨hm, by omega⟩
        simpa using ih (y + 1) hlt

theorem formYieldPage_stops (dp : String → Option Int) (cutoff : Int) (maxSub : Nat)
    (hm : 0 < maxSub) :
    ∀ (subs : List Sub) (y : Nat), y < maxSub → maxSub ≤ y + subs.length →
      (formYieldPage dp cutoff maxSub subs y).2.1 = true := by
  intro subs
  induction subs with
  | nil =>
    intro y hy hlen
    simp only [List.length_nil, Nat.add_zero] at hlen
    exact absurd hlen (by omega)
  | cons s rest ih =>
    intro y hy hlen
    simp only [formYieldPage]
    by_cases hstop : stopsAtCutoff dp cutoff s = true
    · rw [if_pos hstop]
    · rw [if_neg hstop]
      by_cases hmax : 0 < maxSub ∧ maxSub ≤ y + 1
      · rw [if_pos hmax]
      · rw [if_neg hmax]
        have hlt : y + 1 < maxSub := by
          by_contra hcon
          exact hmax ⟨hm, by omega⟩
        simp only [List.length_cons] at hlen
        simpa using ih (y + 1) hlt (by omega)

theorem formYieldPage_cutoff_zero (dp : String → Option Int) (maxSub : Nat)
    (hm : 0 < maxSub) :
    ∀ (subs : List Sub) (y : Nat), y < maxSub →
      formYieldPage dp 0 maxSub subs y =
        if maxSub ≤ y + subs.length then (subs.take (maxSub - y), true, maxSub)
        else (subs, false, y + subs.length) := by
  intro subs
  induction subs with
  | nil =>
    intro y hy
    rw [if_neg (by simp only [List.length_nil, Nat.add_zero]; omega)]
    simp [formYieldPage]
  | cons s rest ih =>
    intro y hy
    simp only [formYieldPage, stopsAtCutoff_zero, Bool.false_eq_true, if_false]
    by_cases hmax : maxSub ≤ y + 1
    · rw [if_pos ⟨hm, hmax⟩,
        if_pos (by simp only [List.length_cons]; omega)]
      have h1 : maxSub - y = 1 := by omega
      have h2 : maxSub = y + 1 := by omega
      rw [h1, h2]
      rfl
    · rw [if_neg (fun h => hmax h.2)]
      have hlt : y + 1 < maxSub := by omega
      rw [ih (y + 1) hlt]
      by_cases hlen : maxSub ≤ y + 1 + rest.length
      · rw [if_pos hlen, if_pos (by simp only [List.length_cons]; omega)]
        have h1 : maxSub - y = (maxSub - (y + 1)) + 1 := by omega
        rw [h1, List.take_succ_cons]
      · rw [if_neg hlen, if_neg (by simp only [List.length_cons]; omega)]
        simp only [List.length_cons, Prod.mk.injEq, true_and]
        omega

theorem formYieldPage_nolimit (dp : String → Option Int) :
    ∀ (subs : List Sub) (y : Nat),
      formYieldPage dp 0 0 subs y = (subs, false, y + subs.length) := by
  intro subs
  induction subs with
  | nil =>
    intro y
    simp [formYieldPage]
  | cons s rest ih =>
    intro y
    simp only [formYieldPage, stopsAtCutoff_zero, Bool.false_eq_true, if_false]
    rw [if_neg (by rintro ⟨h, -⟩; omega)]
    rw [ih (y + 1)]
    simp only [List.length_cons, Prod.mk.injEq, true_and]
    omega

theorem formYield_length_le (dp : String → Option Int) (cutoff : Int) (maxSub : Nat)
    (hm : 0 < maxSub) :
    ∀ (pages : List FormPage) (y : Nat), y < maxSub →
      (formYield dp cutoff maxSub pages y).length ≤ maxSub - y := by
  intro pages
  induction pages with
  | nil =>
    intro y hy
    simp [formYield]
  | cons page rest ih =>
    intro y hy
    obtain ⟨r, nx⟩ := page
    simp only [formYield]
    by_cases hre : r = []
    · rw [if_pos hre]
      simp
    · rw [if_neg hre]
      have hcount := formYieldPage_count dp cutoff maxSub r y
      have hle := formYieldPage_le dp cutoff maxSub hm r y hy
      by_cases hstop : (formYieldPage dp cutoff maxSub r y).2.1 = true
      · rw [if_pos hstop]
        omega
      · rw [if_neg hstop]
        have hstop' : (formYieldPage dp cutoff maxSub r y).2.1 = false :=
          Bool.not_eq_true _ ▸ eq_false_of_ne_true hstop
        have hlt := hle.2 hstop'
        simp only [List.length_append]
        by_cases hnx : nx.isSome = true
        · rw [if_pos hnx]
          have := ih (formYieldPage dp cutoff maxSub r y).2.2 hlt
          omega
        · rw [if_neg hnx]
          simp only [List.length_nil]
          omega

theorem formYield_wf_take (dp : String → Option Int) (maxSub : Nat) (hm : 0 < maxSub) :
    ∀ (pages : List FormPage) (y : Nat), wfFormSource pages = true → y < maxSub →
      formYield dp 0 maxSub pages y = ((pages.map Prod.fst).flatten).take (maxSub - y) := by
  intro pages
  induction pages with
  | nil =>
    intro y _ _
    simp [formYield]
  | cons page rest ih =>
    intro y hwf hy
    obtain ⟨r, nx⟩ := page
    obtain ⟨hr, hrest⟩ := wfFormSource_cons r nx rest hwf
    simp only [formYield, if_neg hr]
    rw [formYieldPage_cutoff_zero dp maxSub hm r y hy]
    by_cases hlen : maxSub ≤ y + r.length
    · rw [if_pos hlen]
      simp only [if_true]
      rw [List.map_cons, List.flatten_cons, List.take_append_eq_append_take]
      have h2 : maxSub - y - r.length = 0 := by omega
      rw [h2, List.take_zero, List.append_nil]
    · rw [if_neg hlen]
      simp only [Bool.false_eq_true, if_false]
      rcases hrest with hnil | ⟨hnx, hwfrest⟩
      · subst hnil
        have hif : (if nx.isSome then formYield dp 0 maxSub ([] : List FormPage)
            (y + r.length) else []) = [] := by
          cases nx.isSome <;> simp [formYield]
        rw [hif, List.map_cons, List.map_nil, List.flatten_cons, List.flatten_nil,
          List.append_nil, List.take_of_length_le (by omega)]
      · rw [if_pos hnx, ih _ hwfrest (by omega), List.map_cons, List.flatten_cons,
          List.take_append_eq_append_take,
          List.take_of_length_le (by omega : r.length ≤ maxSub - y)]
        have h3 : maxSub - y - r.length = maxSub - (y + r.length) := by omega
        rw [h3]

theorem formYield_wf_nolimit (dp : String → Option Int) :
    ∀ (pages : List FormPage) (y : Nat), wfFormSource pages = true →
      formYield dp 0 0 pages y = (pages.map Prod.fst).flatten := by
  intro pages
  induction pages with
  | nil =>
    intro y _
    simp [formYield]
  | cons page rest ih =>
    intro y hwf
    obtain ⟨r, nx⟩ := page
    obtain ⟨hr, hrest⟩ := wfFormSource_cons r nx rest hwf
    simp only [formYield, if_neg hr]
    rw [formYieldPage_nolimit dp r y]
    simp only [Bool.false_eq_true, if_false]
    rcases hrest with hnil | ⟨hnx, hwfrest⟩
    · subst hnil
      have hif : (if nx.isSome then formYield dp 0 0 ([] : List FormPage)
          (y + r.length) else []) = [] := by
        cases nx.isSome <;> simp [formYield]
      rw [hif]
      simp
    · rw [if_pos hnx, ih _ hwfrest]
      simp

/-! ## Claim C3 -/

/-- C3: both cursor paginators yield exactly the concatenation of all their
pages' items over a well-formed finite page source, truncated to the
configured maximum total item count when one is set (0 disables it), and
when a maximum is set the number of items yielded never exceeds it — on any
page source, even when the page crossing the budget is larger than the
remaining budget. -/
theorem claim_C3_paginator_concat_truncated :
    (∀ (α : Type) (maxC : Nat) (pages : List (SearchPage α)),
      (wfSearchSource pages = true →
        searchYield maxC pages 0 =
          if maxC = 0 then (pages.map Prod.fst).flatten
          else ((pages.map Prod.fst).flatten).take maxC) ∧
      (0 < maxC → (searchYield maxC pages 0).length ≤ maxC)) ∧
    (∀ (dp : String → Option Int) (maxSub : Nat) (pages : List FormPage),
      (wfFormSource pages = true →
        formYield dp 0 maxSub pages 0 =
          if maxSub = 0 then (pages.map Prod.fst).flatten
          else ((pages.map Prod.fst).flatten).take maxSub) ∧
      (0 < maxSub → (formYield dp 0 maxSub pages 0).length ≤ maxSub)) := by
  constructor
  · intro α maxC pages
    constructor
    · intro hwf
      by_cases hz : maxC = 0
      · subst hz
        rw [if_pos rfl]
        exact searchYield_wf_nolimit pages 0 hwf
      · rw [if_neg hz]
        have := searchYield_wf_take maxC (Nat.pos_of_ne_zero hz) pages 0 hwf (Nat.zero_le _)
        simpa using this
    · intro hpos
      have := searchYield_length_le maxC hpos pages 0 (Nat.zero_le _)
      simpa using this
  · intro dp maxSub pages
    constructor
    · intro hwf
      by_cases hz : maxSub = 0
      · subst hz
        rw [if_pos rfl]
        exact formYield_wf_nolimit dp pages 0 hwf
      · rw [if_neg hz]
        have := formYield_wf_take dp maxSub (Nat.pos_of_ne_zero hz) pages 0 hwf
          (Nat.pos_of_ne_zero hz)
        simpa using this
    · intro hpos
      have := formYield_length_le dp 0 maxSub hpos pages 0 hpos
      simpa using this

/-- A concrete three-page search source for the C3 witness. -/
def c3SearchPages : List (SearchPage Nat) :=
  [([1, 2, 3], some "a"), ([4, 5, 6], some "b"), ([7], none)]

/-- A concrete two-page form-submission source for the C3 witness. -/
def c3FormPages : List FormPage :=
  [([⟨none, .num 300, none, none⟩, ⟨none, .num 200, none, none⟩], some 1),
   ([⟨none, .num 100, none, none⟩], none)]

/-- Witness for C3: the search paginator truncates a 7-item source to the
5-item budget; the form paginator truncates a 3-item source to 2. -/
theorem claim_C3_witness :
    searchYield 5 c3SearchPages 0 = [1, 2, 3, 4, 5] ∧
    formYield (fun _ => none) 0 2 c3FormPages 0 =
      [⟨none, .num 300, none, none⟩, ⟨none, .num 200, none, none⟩] :=
  ⟨((claim_C3_paginator_concat_truncated.1 Nat 5 c3SearchPages).1 (by decide)).trans
    (by decide),
   ((claim_C3_paginator_concat_truncated.2 (fun _ => none) 2 c3FormPages).1
    (by decide)).trans (by decide)⟩

/-! ## Cutoff (early-stop) lemmas -/

/-- A submission parses to a timestamp at or after the cutoff. -/
def atOrAfter (dp : String → Option Int) (cutoff : Int) (s : Sub) : Bool :=
  match parseSubmittedAt dp s.submittedAt with
  | some m => decide (cutoff ≤ m)
  | none => false

/-- Strict order on parsed timestamps (false when either is unparsed). -/
def tsLtB : Option Int → Option Int → Bool
  | some x, some y => decide (x < y)
  | _, _ => false

theorem takeWhile_append_of_stop (p : α → Bool) (l₁ l₂ : List α)
    (h : l₁.dropWhile p ≠ []) : (l₁ ++ l₂).takeWhile p = l₁.takeWhile p := by
  induction l₁ with
  | nil => simp [List.dropWhile] at h
  | cons x rest ih =>
    cases hx : p x with
    | true =>
      rw [List.cons_append, List.takeWhile_cons, List.takeWhile_cons, if_pos hx, if_pos hx]
      rw [List.dropWhile_cons, if_pos hx] at h
      rw [ih h]
    | false =>
      rw [List.cons_append, List.takeWhile_cons, List.takeWhile_cons, if_neg (by simp [hx]),
        if_neg (by simp [hx])]

theorem takeWhile_append_of_all (p : α → Bool) (l₁ l₂ : List α)
    (h : ∀ x ∈ l₁, p x = true) :
    (l₁ ++ l₂).takeWhile p = l₁ ++ l₂.takeWhile p := by
  induction l₁ with
  | nil => simp
  | cons x rest ih =>
    have hx := h x (List.mem_cons_self _ _)
    rw [List.cons_append, List.takeWhile_cons, if_pos hx, List.cons_append,
      ih fun y hy => h y (List.mem_cons_of_mem _ hy)]

theorem formYieldPage_maxzero (dp : String → Option Int) (cutoff : Int) :
    ∀ (subs : List Sub) (y : Nat),
      formYieldPage dp cutoff 0 subs y =
        (subs.takeWhile (fun s => !stopsAtCutoff dp cutoff s),
         !(subs.dropWhile (fun s => !stopsAtCutoff dp cutoff s)).isEmpty,
         y + (subs.takeWhile (fun s => !stopsAtCutoff dp cutoff s)).length) := by
  intro subs
  induction subs with
  | nil =>
    intro y
    simp [formYieldPage]
  | cons s rest ih =>
    intro y
    simp only [formYieldPage]
    cases hstop : stopsAtCutoff dp cutoff s with
    | true =>
      rw [if_pos rfl]
      rw [List.takeWhile_cons, List.dropWhile_cons, if_neg (by simp [hstop]),
        if_neg (by simp [hstop])]
      simp
    | false =>
      rw [if_neg (by simp)]
      rw [if_neg (by rintro ⟨h, -⟩; omega)]
      rw [ih (y + 1)]
      rw [List.takeWhile_cons, List.dropWhile_cons, if_pos (by simp [hstop]),
        if_pos (by simp [hstop])]
      simp only [List.length_cons, Prod.mk.injEq, true_and]
      omega

theorem formYield_wf_takeWhile (dp : String → Option Int) (cutoff : Int) :
    ∀ (pages : List FormPage) (y : Nat), wfFormSource pages = true →
      formYield dp cutoff 0 pages y =
        ((pages.map Prod.fst).flatten).takeWhile (fun s => !stopsAtCutoff dp cutoff s) := by
  intro pages
  induction pages with
  | nil =>
    intro y _
    simp [formYield]
  | cons page rest ih =>
    intro y hwf
    obtain ⟨r, nx⟩ := page
    obtain ⟨hr, hrest⟩ := wfFormSource_cons r nx rest hwf
    simp only [formYield, if_neg hr]
    rw [formYieldPage_maxzero dp cutoff r y]
    simp only [List.map_cons, List.flatten_cons]
    cases hdrop : (r.dropWhile (fun s => !stopsAtCutoff dp cutoff s)).isEmpty with
    | false =>
      simp only [Bool.not_false, if_true]
      rw [takeWhile_append_of_stop _ _ _ (by simpa [List.isEmpty_iff] using hdrop)]
    | true =>
      simp only [Bool.not_true, Bool.false_eq_true, if_false]
      have hall : ∀ x ∈ r, (!stopsAtCutoff dp cutoff x) = true :=
        List.dropWhile_eq_nil_iff.mp (by simpa [List.isEmpty_iff] using hdrop)
      have htake : r.takeWhile (fun s => !stopsAtCutoff dp cutoff s) = r :=
        List.takeWhile_eq_self_iff.mpr hall
      rw [takeWhile_append_of_all _ _ _ hall, htake]
      rcases hrest with hnil | ⟨hnx, hwfrest⟩
      · subst hnil
        have hif : (if nx.isSome then formYield dp cutoff 0 ([] : List FormPage)
            (y + r.length) else []) = [] := by
          cases nx.isSome <;> simp [formYield]
        rw [hif]
        simp
      · rw [if_pos hnx, ih _ hwfrest]

theorem takeWhile_eq_filter_sorted (dp : String → Option Int) (cutoff : Int)
    (hc : 0 < cutoff) :
    ∀ L : List Sub,
      (∀ s ∈ L, (parseSubmittedAt dp s.submittedAt).isSome = true) →
      L.Pairwise (fun a b =>
        tsLtB (parseSubmittedAt dp b.submittedAt) (parseSubmittedAt dp a.submittedAt) = true) →
      L.takeWhile (fun s => !stopsAtCutoff dp cutoff s) = L.filter (atOrAfter dp cutoff) := by
  intro L
  induction L with
  | nil =>
    intro _ _
    rfl
  | cons x rest ih =>
    intro hsome hdec
    obtain ⟨mx, hmx⟩ := Option.isSome_iff_exists.mp (hsome x (List.mem_cons_self _ _))
    rw [List.pairwise_cons] at hdec
    by_cases hcm : cutoff ≤ mx
    · have hkeep : (!stopsAtCutoff dp cutoff x) = true := by
        simp [stopsAtCutoff, hmx]
        omega
      have hfil : atOrAfter dp cutoff x = true := by
        simp [atOrAfter, hmx, hcm]
      rw [List.takeWhile_cons, if_pos hkeep, List.filter_cons, if_pos hfil,
        ih (fun s hs => hsome s (List.mem_cons_of_mem _ hs)) hdec.2]
    · have hkeep : (!stopsAtCutoff dp cutoff x) = false := by
        simp [stopsAtCutoff, hmx]
        omega
      have hfil : ¬ atOrAfter dp cutoff x = true := by
        simp [atOrAfter, hmx]
        omega
      rw [List.takeWhile_cons, if_neg (by simp [hkeep]), List.filter_cons, if_neg hfil]
      symm
      rw [List.filter_eq_nil_iff]
      intro y hy
      have hlt := hdec.1 y hy
      obtain ⟨my, hmy⟩ := Option.isSome_iff_exists.mp (hsome y (List.mem_cons_of_mem _ hy))
      rw [hmy, hmx] at hlt
      simp only [tsLtB, decide_eq_true_eq] at hlt
      simp [atOrAfter, hmy]
      omega

/-! ## Claim C4 -/

/-- C4: over a well-formed newest-first page source whose items all parse
to strictly decreasing timestamps, with a positive cutoff, the
form-submission paginator yields exactly the items whose timestamp is at or
after the cutoff and none older (the early stop discards the firing item,
the rest of its page, and all further pages). -/
theorem claim_C4_cutoff_yields_at_or_after (dp : String → Option Int) (cutoff : Int)
    (pages : List FormPage) (hwf : wfFormSource pages = true) (hc : 0 < cutoff)
    (hsome : ∀ s ∈ (pages.map Prod.fst).flatten,
      (parseSubmittedAt dp s.submittedAt).isSome = true)
    (hdec : ((pages.map Prod.fst).flatten).Pairwise (fun a b =>
      tsLtB (parseSubmittedAt dp b.submittedAt) (parseSubmittedAt dp a.submittedAt) = true)) :
    formYield dp cutoff 0 pages 0 =
      ((pages.map Prod.fst).flatten).filter (atOrAfter dp cutoff) := by
  rw [formYield_wf_takeWhile dp cutoff pages 0 hwf]
  exact takeWhile_eq_filter_sorted dp cutoff hc _ hsome hdec

/-- Witness for C4: timestamps 300 > 200 > 100 over two pages with cutoff
150 keep exactly the two newest items. -/
theorem claim_C4_witness :
    formYield (fun _ => none) 150 0 c3FormPages 0 =
      ((c3FormPages.map Prod.fst).flatten).filter (atOrAfter (fun _ => none) 150) :=
  claim_C4_cutoff_yields_at_or_after (fun _ => none) 150 c3FormPages
    (by decide) (by decide) (by decide) (by decide)

/-! ## Entry-count lemmas -/

theorem countEntries_jmSet_append (m : EmailMap) (k : String) (es : List Entry) :
    countEntries (jmSet m k (((jmGet m k).getD []) ++ es)) = countEntries m + es.length := by
  induction m with
  | nil => simp [countEntries, jmSet, jmGet]
  | cons p rest ih =>
    obtain ⟨k', v'⟩ := p
    by_cases hk : k' = k
    · subst hk
      simp [countEntries, jmSet, jmGet, List.length_append]
      omega
    · simp only [jmGet, hk, if_false, jmSet, if_neg hk]
      simp only [countEntries, List.map_cons, List.sum_cons] at ih ⊢
      have := ih
      omega

theorem countEntries_fileStep_le (ent : Sub → Entry) (m : EmailMap) (s : Sub) :
    countEntries (fileSubmissionStep ent m s) ≤ countEntries m + 1 := by
  unfold fileSubmissionStep
  split
  · omega
  · rename_i k _
    have := countEntries_jmSet_append m k [ent s]
    simp only [List.length_cons, List.length_nil] at this
    omega

theorem countEntries_fileFold_le (ent : Sub → Entry) :
    ∀ (subs : List Sub) (m : EmailMap),
      countEntries (subs.foldl (fileSubmissionStep ent) m) ≤
        countEntries m + subs.length := by
  intro subs
  induction subs with
  | nil =>
    intro m
    simp
  | cons s rest ih =>
    intro m
    simp only [List.foldl_cons, List.length_cons]
    have h1 := ih (fileSubmissionStep ent m s)
    have h2 := countEntries_fileStep_le ent m s
    omega

theorem countEntries_collect_le (dp : String → Option Int) (form : Form)
    (pages : List FormPage) (maxPerForm : Nat) (cutoff : Int) :
    countEntries (collectFormSubmissionsForForm dp form pages maxPerForm cutoff) ≤
      (formYield dp cutoff maxPerForm pages 0).length := by
  unfold collectFormSubmissionsForForm
  split
  · simp [countEntries]
  · rename_i g heq
    by_cases hge : g = ""
    · rw [if_pos hge]
      simp [countEntries]
    · rw [if_neg hge]
      have := countEntries_fileFold_le (mkEntry (form.name.getD g) g)
        (formYield dp cutoff maxPerForm pages 0) []
      simpa [countEntries] using this

theorem countEntries_emapAppendInto :
    ∀ (m into : EmailMap),
      countEntries (emapAppendInto into m) = countEntries into + countEntries m := by
  intro m
  induction m with
  | nil =>
    intro into
    simp [emapAppendInto, countEntries]
  | cons p rest ih =>
    intro into
    show countEntries (emapAppendInto (jmSet into p.1 (((jmGet into p.1).getD []) ++ p.2)) rest) = _
    rw [ih, countEntries_jmSet_append]
    simp only [countEntries, List.map_cons, List.sum_cons]
    omega

theorem countEntries_fetchNewest_fold_le (dp : String → Option Int) (cutoff : Int) :
    ∀ (formSources : List FormSource) (acc : EmailMap),
      countEntries (formSources.foldl (fun acc fs =>
        emapAppendInto acc
          (collectFormSubmissionsForForm dp fs.1 fs.2 formSubmissionsPageSize cutoff)) acc) ≤
      countEntries acc + formSources.length * formSubmissionsPageSize := by
  intro formSources
  induction formSources with
  | nil =>
    intro acc
    simp
  | cons fs rest ih =>
    intro acc
    simp only [List.foldl_cons, List.length_cons]
    have h1 := ih (emapAppendInto acc
      (collectFormSubmissionsForForm dp fs.1 fs.2 formSubmissionsPageSize cutoff))
    have h2 := countEntries_emapAppendInto
      (collectFormSubmissionsForForm dp fs.1 fs.2 formSubmissionsPageSize cutoff) acc
    have h3 := countEntries_collect_le dp fs.1 fs.2 formSubmissionsPageSize cutoff
    have h4 := formYield_length_le dp cutoff formSubmissionsPageSize (by decide)
      fs.2 0 (by decide)
    have h5 : (rest.length + 1) * formSubmissionsPageSize =
        rest.length * formSubmissionsPageSize + formSubmissionsPageSize := by ring
    omega

theorem formRequestCount_le_one (dp : String → Option Int) (cutoff : Int)
    (r : List Sub) (nx : Option Nat) (rest : List FormPage)
    (h : formSubmissionsPageSize ≤ r.length ∨ r = [] ∨ nx = none) :
    formRequestCount dp cutoff formSubmissionsPageSize ((r, nx) :: rest) 0 ≤ 1 := by
  simp only [formRequestCount]
  by_cases hre : r = []
  · rw [if_pos hre]
  · rw [if_neg hre]
    rcases h with hlen | hre' | hnx
    · rw [if_pos (formYieldPage_stops dp cutoff formSubmissionsPageSize (by decide)
        r 0 (by decide) (by simpa using hlen))]
    · exact absurd hre' hre
    · subst hnx
      by_cases hstop : (formYieldPage dp cutoff formSubmissionsPageSize r 0).2.1 = true
      · rw [if_pos hstop]
      · rw [if_neg hstop]
        simp

/-! ## Claim C8 -/

/-- C8: the incremental delta path fetches at most one page per form — the
yielded-item count of a pagination run with the hard-coded
`maxPerForm = FORM_SUBMISSIONS_PAGE_SIZE` never exceeds 50, the whole
delta's entry count is bounded by 50 per known form (independently of the
configured history limits, which `fetchNewestFormSubmissionsOnly` never
consults), and no second page request is issued when the first page is
either full, empty, or carries no continuation cursor. -/
theorem claim_C8_delta_single_newest_page :
    (∀ (dp : String → Option Int) (cutoff : Int) (pages : List FormPage),
      (formYield dp cutoff formSubmissionsPageSize pages 0).length ≤
        formSubmissionsPageSize) ∧
    (∀ (dp : String → Option Int) (cutoff : Int) (formSources : List FormSource),
      countEntries (fetchNewestFormSubmissionsOnly dp formSources cutoff) ≤
        formSources.length * formSubmissionsPageSize) ∧
    (∀ (dp : String → Option Int) (cutoff : Int) (r : List Sub) (nx : Option Nat)
        (rest : List FormPage),
      formSubmissionsPageSize ≤ r.length ∨ r = [] ∨ nx = none →
      formRequestCount dp cutoff formSubmissionsPageSize ((r, nx) :: rest) 0 ≤ 1) := by
  refine ⟨fun dp cutoff pages => ?_, fun dp cutoff formSources => ?_,
    fun dp cutoff r nx rest h => formRequestCount_le_one dp cutoff r nx rest h⟩
  · have := formYield_length_le dp cutoff formSubmissionsPageSize (by decide) pages 0
      (by decide)
    simpa using this
  · have := countEntries_fetchNewest_fold_le dp cutoff formSources []
    simpa [fetchNewestFormSubmissionsOnly, countEntries] using this

/-- Witness for C8: a full 50-item first page with a continuation cursor
triggers the max-stop, so only one request is issued. -/
theorem claim_C8_witness :
    formRequestCount (fun _ => none) 0 formSubmissionsPageSize
      [(List.replicate 50 ⟨none, .null, none, none⟩, some 1),
       ([⟨none, .null, none, none⟩], none)] 0 ≤ 1 :=
  claim_C8_delta_single_newest_page.2.2 (fun _ => none) 0
    (List.replicate 50 ⟨none, .null, none, none⟩) (some 1)
    [([⟨none, .null, none, none⟩], none)] (Or.inl (by decide))

/-! ## Engagement-counter lemmas -/

theorem jmGet_foldl_jmSet_fn {β : Type} (f : String → β) (ids : List String)
    (m0 : List (String × β)) (id : String) :
    jmGet (ids.foldl (fun m i => jmSet m i (f i)) m0) id =
      if id ∈ ids then some (f id) else jmGet m0 id := by
  induction ids generalizing m0 with
  | nil => simp
  | cons i rest ih =>
    simp only [List.foldl_cons]
    rw [ih]
    by_cases hmem : id ∈ rest
    · simp [hmem]
    · rw [if_neg hmem]
      by_cases hid : i = id
      · subst hid
        simp [jmGet_jmSet_self]
      · rw [jmGet_jmSet_ne _ _ _ _ hid,
          if_neg (by simp only [List.mem_cons, not_or]
                     exact ⟨fun h => hid h.symm, hmem⟩)]

/-! ## Claim C7 -/

/-- An event log whose first page succeeds with one open event and whose
second page read fails with status 403. -/
def partialFailureEventLog : String → List (Except Nat EventPage) :=
  fun _ => [.ok (["OPEN"], some "x"), .error 403]

/-- C7 counterexample: when the 403 arrives on the second event-log page
after one open event was already tallied from the first page, the contact's
recorded counts are `{opens: 1, clicks: 0}`, not `{opens: 0, clicks: 0}` —
the catch keeps the partial counts instead of resetting them. -/
theorem claim_C7_counterexample :
    jmGet (fetchContactEmailEngagementCounts (some "OPEN") (some "CLICK")
        partialFailureEventLog ["1"]) "1" = some ⟨1, 0⟩ ∧
    (⟨1, 0⟩ : EngCounts) ≠ ⟨0, 0⟩ := by
  constructor
  · decide
  · decide

/-- C7 (amended): engagement counting never aborts — every requested
contact has an entry in the result — and a contact whose event-log read
fails on the first page request (any status, 403/404 included) records
exactly `{opens: 0, clicks: 0}`; a failure on a later page keeps the counts
tallied from the pages before it. -/
theorem claim_C7_engagement_errors_absorbed (eventTypeOpen eventTypeClick : Option String)
    (eventLog : String → List (Except Nat EventPage)) (contactIds : List String)
    (id : String) (hid : id ∈ contactIds) :
    (∃ c, jmGet (fetchContactEmailEngagementCounts eventTypeOpen eventTypeClick
        eventLog contactIds) id = some c) ∧
    (∀ (status : Nat) (rest : List (Except Nat EventPage)),
      eventLog id = .error status :: rest →
      jmGet (fetchContactEmailEngagementCounts eventTypeOpen eventTypeClick
        eventLog contactIds) id = some ⟨0, 0⟩) := by
  unfold fetchContactEmailEngagementCounts
  by_cases hres : (!strTruthy eventTypeOpen && !strTruthy eventTypeClick) = true
  · rw [if_pos hres]
    have h0 := jmGet_foldl_jmSet_fn (fun _ => (⟨0, 0⟩ : EngCounts)) contactIds [] id
    rw [if_pos hid] at h0
    exact ⟨⟨⟨0, 0⟩, h0⟩, fun _ _ _ => h0⟩
  · rw [if_neg hres]
    have h0 := jmGet_foldl_jmSet_fn
      (fun cid => runEventLoop eventTypeOpen eventTypeClick (eventLog cid) ⟨0, 0⟩)
      contactIds (contactIds.foldl (fun m cid => jmSet m cid (⟨0, 0⟩ : EngCounts)) []) id
    rw [if_pos hid] at h0
    refine ⟨⟨_, h0⟩, fun status rest herr => ?_⟩
    rw [h0, herr]
    rfl

/-- Witness for C7: a contact whose very first event-log request fails with
403 records exactly zero counts. -/
theorem claim_C7_witness :
    jmGet (fetchContactEmailEngagementCounts (some "OPEN") (some "CLICK")
      (fun _ => [.error 403]) ["1"]) "1" = some ⟨0, 0⟩ :=
  (claim_C7_engagement_errors_absorbed (some "OPEN") (some "CLICK")
    (fun _ => [.error 403]) ["1"] "1" (by decide)).2 403 [] rfl

end HubSpotAnalysis
